import Mathlib

/-!
Verification development for the FitGlue packaging scripts.

Shallow embedding of the resolution, materialization, packaging and
validation logic of `scripts/analyze_ts_imports.py`,
`scripts/analyze_go_imports.py`, `scripts/build_function_zips.py`,
`scripts/build_typescript_zips.py` and `scripts/validate_shared_modules.py`,
together with theorems about it.

Modelling conventions:
* Python strings are Lean `String`s; where Python slices, compares or
  searches a string we operate on the underlying code-point list
  (`String.data`), which matches Python's per-code-point semantics.
* Python sets are duplicate-free lists; `set.add` appends a missing element.
* Python dicts are association lists with unique keys; `d[k]` / `d.get(k)`
  is assoc lookup, iteration is list order.
* `subprocess.run(..., check=True)` results are `Except` values: `.error`
  is a `CalledProcessError`, `.ok` carries captured stdout.
* Filesystem facts a function consults (`Path.exists`, the set of files on
  disk) are passed as explicit parameters.
-/

/-! ## Python string primitives -/

/-- Python `s.startswith(pre)`: code-point prefix test. -/
def pyStartsWith (s pre : String) : Bool := pre.data.isPrefixOf s.data

/-- Contiguous-sublist test on code-point lists, used to model Python's
`needle in hay` substring operator. -/
def containsSub (hay needle : List Char) : Bool :=
  needle.isPrefixOf hay ||
    match hay with
    | [] => false
    | _ :: t => containsSub t needle

/-- Python `needle in hay` for strings. -/
def pyContains (hay needle : String) : Bool := containsSub hay.data needle.data

/-- Python `s[n:]` (character slice). -/
def pyDropChars (s : String) (n : Nat) : String := ⟨s.data.drop n⟩

/-- Python `s.lstrip("/")`. -/
def pyLStripSlash (s : String) : String := ⟨s.data.dropWhile (fun c => c == '/')⟩

/-- Python `s.lstrip('./')` (strips any leading `.` and `/` characters). -/
def pyLStripDotSlash (s : String) : String :=
  ⟨s.data.dropWhile (fun c => c == '.' || c == '/')⟩

/-- Python whitespace test for `str.strip()`. -/
def isPySpace (c : Char) : Bool := c == ' ' || c == '\n' || c == '\t' || c == '\r'

/-- Python `s.strip()`. -/
def pyStrip (s : String) : String :=
  ⟨((s.data.dropWhile isPySpace).reverse.dropWhile isPySpace).reverse⟩

/-- Python `s.split("\n")`. -/
def pySplitLines (s : String) : List String := (s.data.splitOn '\n').map (fun l => ⟨l⟩)

/-- Code-point comparison of strings (as lists of characters): Python's
`<=` on strings, the order used by `sorted` / `list.sort`. -/
def strLeB : List Char → List Char → Bool
  | [], _ => true
  | _ :: _, [] => false
  | a :: as, b :: bs =>
    if a.toNat < b.toNat then true
    else if b.toNat < a.toNat then false
    else strLeB as bs

/-! ## Python container primitives -/

/-- Python `set.add`: the set is a duplicate-free list, a new element is
appended. -/
def sadd {α : Type} [DecidableEq α] (s : List α) (x : α) : List α :=
  if x ∈ s then s else s ++ [x]

/-- Python `set.update(xs)`. -/
def supdate {α : Type} [DecidableEq α] (s : List α) (xs : List α) : List α :=
  xs.foldl sadd s

/-- Python `dict[k]` / `dict.get(k)` on an association list with unique
keys. -/
def dictGet {β : Type} (k : String) : List (String × β) → Option β
  | [] => none
  | (k', v) :: rest => if k = k' then some v else dictGet k rest

/-! ## The module registry (`shared_modules.json`) -/

/-- One entry of the `modules` table of `shared_modules.json`. -/
structure ModuleConfig where
  paths : List String
  depends_on : List String
  always_include : Bool
  deriving DecidableEq

/-- Value of an `import_patterns` entry: the JSON may hold a single module
id or a list of module ids (`resolve_modules` branches on
`isinstance(pattern_modules, list)`). -/
inductive PatternVal where
  | str (s : String)
  | list (l : List String)
  deriving DecidableEq

/-- Modules denoted by a pattern value (the `isinstance(..., list)` branch
updates with the whole list, the other adds the single id). -/
def PatternVal.vals : PatternVal → List String
  | .str s => [s]
  | .list l => l

/-- The parsed `shared_modules.json` registry. -/
structure ModulesConfig where
  modules : List (String × ModuleConfig)
  import_patterns : List (String × PatternVal)
  deriving DecidableEq

/-- Module ids defined by the registry (`modules_config['modules'].keys()`). -/
def moduleNames (cfg : ModulesConfig) : List String := cfg.modules.map (fun m => m.1)

/-! ## `analyze_ts_imports.py` -/

/-- The shared barrel specifier `@fitglue/shared`. -/
def BARREL : String := "@fitglue/shared"

/-- Substrings that exclude a file from the scan in `get_handler_imports`. -/
def EXCLUDED_SUBSTRINGS : List String := ["node_modules", "dist", "build", "coverage"]

/-- The exclusion test of `get_handler_imports`:
`any(excl in path_str for excl in [...])`. -/
def isExcludedPath (path_str : String) : Bool :=
  EXCLUDED_SUBSTRINGS.any (fun excl => pyContains path_str excl)

/-- `get_handler_imports`: folds the per-file extraction over the handler's
`.ts` files (each a pair of full path string and file text), skipping any
file whose path string contains an excluded substring.  The regex-based
`extract_imports` is abstracted as the parameter `extract` mapping file text
to (deep imports, barrel symbols); the theorems below hold for every
`extract`. -/
def get_handler_imports (extract : String → List String × List String)
    (ts_files : List (String × String)) : List String × List String :=
  ts_files.foldl
    (fun acc f =>
      if isExcludedPath f.1 then acc
      else (supdate acc.1 (extract f.2).1, supdate acc.2 (extract f.2).2))
    ([], [])

/-- The unconditional fold of `get_handler_imports` (no exclusion test),
used to state which files contribute to the result. -/
def accumulate_imports (extract : String → List String × List String)
    (ts_files : List (String × String)) (acc : List String × List String) :
    List String × List String :=
  ts_files.foldl
    (fun acc f => (supdate acc.1 (extract f.2).1, supdate acc.2 (extract f.2).2))
    acc

/-- The longest-prefix scan of `resolve_modules`
(`for pattern in import_patterns: if imp.startswith(pattern) and
len(pattern) > best_len`): returns (best_match, best_len). -/
def bestPatternMatch (import_patterns : List (String × PatternVal)) (imp : String) :
    Option String × Nat :=
  import_patterns.foldl
    (fun acc p =>
      if pyStartsWith imp p.1 && decide (acc.2 < p.1.length) then (some p.1, p.1.length)
      else acc)
    (none, 0)

/-- Modules contributed by one deep import in `resolve_modules`: the modules
mapped by the pattern with the longest matching prefix, if any. -/
def deepImportModules (import_patterns : List (String × PatternVal)) (imp : String) :
    List String :=
  match (bestPatternMatch import_patterns imp).1 with
  | none => []
  | some best =>
    match dictGet best import_patterns with
    | none => []
    | some v => v.vals

/-- The seed set built by `resolve_modules` before the dependency loop: deep
imports resolved by longest prefix (the bare barrel specifier is skipped),
all barrel-pattern modules when any barrel symbol or whole-barrel import was
seen, and every `always_include` module. -/
def seedModules (deep_imports barrel_symbols : List String) (cfg : ModulesConfig) :
    List String :=
  let required : List String :=
    deep_imports.foldl
      (fun req imp =>
        if imp = BARREL then req
        else supdate req (deepImportModules cfg.import_patterns imp))
      []
  let required : List String :=
    if barrel_symbols ≠ [] ∨ BARREL ∈ deep_imports then
      supdate required ((dictGet BARREL cfg.import_patterns).elim [] PatternVal.vals)
    else required
  cfg.modules.foldl (fun req m => if m.2.always_include then sadd req m.1 else req) required

/-- The body of the closure loop of `resolve_modules` for one scanned
member: a member absent from the registry is skipped (`if mod_id not in
modules: continue`), otherwise its not-yet-present dependencies are
appended. -/
def closureStep (cfg : ModulesConfig) (req : List String) (mod_id : String) : List String :=
  match dictGet mod_id cfg.modules with
  | none => req
  | some mc => supdate req mc.depends_on

/-- One scan of `for mod_id in list(required)` in the closure loop of
`resolve_modules`: the snapshot `list(required)` is the set at the start of
the pass, while the `dep not in required` membership test sees the growing
set. -/
def closurePass (cfg : ModulesConfig) (required : List String) : List String :=
  required.foldl (closureStep cfg) required

/-- The bounded iteration of `resolve_modules` (`while changed and
iterations < max_iterations`), with the remaining iteration budget as fuel;
a pass that changes nothing ends the loop, exhausted fuel ends it silently. -/
def closureLoop (cfg : ModulesConfig) : Nat → List String → List String
  | 0, required => required
  | fuel + 1, required =>
    let required' := closurePass cfg required
    if required' = required then required' else closureLoop cfg fuel required'

/-- The safety ceiling `max_iterations = 50` of `resolve_modules`. -/
def max_iterations : Nat := 50

/-- `resolve_modules` of analyze_ts_imports.py. -/
def resolve_modules (deep_imports barrel_symbols : List String) (cfg : ModulesConfig) :
    List String :=
  closureLoop cfg max_iterations (seedModules deep_imports barrel_symbols cfg)

/-- `get_module_paths` of analyze_ts_imports.py: the union of the declared
`paths` of the required modules that are present in the registry. -/
def get_module_paths (required_modules : List String) (cfg : ModulesConfig) : List String :=
  required_modules.foldl
    (fun paths mod_id =>
      match dictGet mod_id cfg.modules with
      | none => paths
      | some mc => supdate paths mc.paths)
    []

/-- Declared dependencies of a module id, as the closure loop reads them
(absent modules declare nothing). -/
def depsOf (cfg : ModulesConfig) (mod_id : String) : List String :=
  (dictGet mod_id cfg.modules).elim [] (fun mc => mc.depends_on)

/-- The resolved set is closed under the declared dependency relation. -/
def ClosedUnderDeps (cfg : ModulesConfig) (required : List String) : Prop :=
  ∀ m ∈ required, ∀ d ∈ depsOf cfg m, d ∈ required

/-- All dependency targets declared anywhere in the registry. -/
def depPool (cfg : ModulesConfig) : List String :=
  cfg.modules.flatMap (fun m => m.2.depends_on)

/-! ## `analyze_go_imports.py` / `build_function_zips.py`: extraction -/

/-- Module path of the internal Go packages. -/
def MODULE_PREFIX : String := "github.com/fitglue/server/src/go/pkg"

/-- Parsing of the `go list -f {{.ImportPath}} -deps` output lines in
`get_pkg_dependencies`: keep lines starting with `MODULE_PREFIX`, strip the
prefix and leading slashes, skip the bare module root. -/
def parseGoListOutput (lines : List String) : List String :=
  lines.foldl
    (fun pkg_deps line =>
      if pyStartsWith line MODULE_PREFIX then
        let relative_path := pyLStripSlash (pyDropChars line MODULE_PREFIX.length)
        if relative_path ≠ "" then sadd pkg_deps relative_path else pkg_deps
      else pkg_deps)
    []

/-- `get_pkg_dependencies` of build_function_zips.py: a failed `go list`
invocation (`CalledProcessError`) returns `None` — modelled as `none` — to
signal "include everything"; success parses stdout. -/
def get_pkg_dependencies (goListResult : Except String String) : Option (List String) :=
  match goListResult with
  | .error _ => none
  | .ok stdout => some (parseGoListOutput (pySplitLines (pyStrip stdout)))

/-- The variant of `get_pkg_dependencies` in analyze_go_imports.py (the
reporting CLI, not used by the builder): a failed invocation yields the
empty set after printing to stderr. -/
def get_pkg_dependencies_analyzer (goListResult : Except String String) : List String :=
  match goListResult with
  | .error _ => []
  | .ok stdout => parseGoListOutput (pySplitLines (pyStrip stdout))

/-- How `create_function_zip` stages the shared `pkg/` tree: `full` models
the unpruned `shutil.copytree`, `pruned` the `copy_pruned_pkg` call. -/
inductive PkgStaging where
  | full
  | pruned (needed_packages : List String)
  deriving DecidableEq

/-- The staging decision of `create_function_zip`: with pruning enabled, a
failed analysis (`needed_packages is None`) falls back to the full copy. -/
def stagePkgPlan (prune : Bool) (goListResult : Except String String) : PkgStaging :=
  if prune then
    match get_pkg_dependencies goListResult with
    | none => .full
    | some needed => .pruned needed
  else .full

/-- The set of `pkg/` directories staged by `create_function_zip` for a
plan, as a function of the set `pkgUniverse` of paths existing under the
shared `pkg/` tree (`copy_pruned_pkg` copies a needed path only when it
exists; the full copy takes the whole tree). -/
def stagedPkgDirs (plan : PkgStaging) (pkgUniverse : List String) : List String :=
  match plan with
  | .full => pkgUniverse
  | .pruned needed => needed.filter (fun d => pkgUniverse.contains d)

/-- `get_pkg_directories` of analyze_go_imports.py.  A package path is
modelled as its list of `/`-separated segments, so Python's
`dep.split("/")` is the identity and `"/".join(parts[:i])` is `take i`:
each dependency contributes itself and every proper ancestor prefix
(`for i in range(1, len(parts))`). -/
def get_pkg_directories (pkg_deps : List (List String)) : List (List String) :=
  pkg_deps.foldl
    (fun directories dep =>
      let directories := sadd directories dep
      (List.range' 1 (dep.length - 1)).foldl (fun ds i => sadd ds (dep.take i)) directories)
    []

/-! ## Deterministic archive serialization
(`create_function_zip` / `create_handler_zip`) -/

/-- A staged directory tree, as sibling-chained entries: a `file` carries
its bytes plus the filesystem metadata (mtime, permission mode) that the
deterministic zip code must ignore; sibling order is the arbitrary
filesystem enumeration order `os.walk` would surface. -/
inductive FSTree where
  | nil : FSTree
  | file (name : String) (content : List Nat) (mtime mode : Nat) (rest : FSTree) : FSTree
  | dir (name : String) (sub : FSTree) (rest : FSTree) : FSTree
  deriving DecidableEq

/-- Chunk produced per directory entry during the walk: a file's bytes, or a
subdirectory's already-assembled entry list (paths relative to it). -/
inductive WalkChunk where
  | fileC (content : List Nat)
  | dirC (entries : List (List String × List Nat))
  deriving DecidableEq

/-- Insertion into a name-sorted association list (code-point order on
names, as Python's `sorted` / `list.sort`). -/
def insPair {β : Type} (x : String × β) : List (String × β) → List (String × β)
  | [] => [x]
  | y :: ys => if strLeB x.1.data y.1.data then x :: y :: ys else y :: insPair x ys

/-- Sorting an association list by name: models `dirs.sort()` and
`sorted(files)` in the zip serialization loops. -/
def sortPairs {β : Type} : List (String × β) → List (String × β)
  | [] => []
  | x :: xs => insPair x (sortPairs xs)

/-- File chunks of one walk level. -/
def fileChunksOf (chunks : List (String × WalkChunk)) : List (String × List Nat) :=
  chunks.filterMap (fun c =>
    match c.2 with
    | .fileC content => some (c.1, content)
    | .dirC _ => none)

/-- Directory chunks of one walk level. -/
def dirChunksOf (chunks : List (String × WalkChunk)) :
    List (String × List (List String × List Nat)) :=
  chunks.filterMap (fun c =>
    match c.2 with
    | .dirC es => some (c.1, es)
    | .fileC _ => none)

/-- One `os.walk` level as serialized by the zip loops: the files of the
directory in sorted order, then the contents of each subdirectory, the
subdirectories taken in sorted order (`dirs.sort()` makes the top-down walk
visit them sortedly, `for file in sorted(files)` sorts the files). -/
def assembleWalk (chunks : List (String × WalkChunk)) : List (List String × List Nat) :=
  (sortPairs (fileChunksOf chunks)).map (fun f => ([f.1], f.2)) ++
    (sortPairs (dirChunksOf chunks)).flatMap (fun d => d.2.map (fun e => (d.1 :: e.1, e.2)))

/-- The recursive walk: one chunk per directory entry, in enumeration
order; subdirectory names for which `skip` holds are pruned from the walk
(`dirs[:] = [d for d in dirs if d != 'cmd']` in build_function_zips.py; no
pruning in build_typescript_zips.py). -/
def walkChunks (skip : String → Bool) : FSTree → List (String × WalkChunk)
  | .nil => []
  | .file n content _ _ rest => (n, .fileC content) :: walkChunks skip rest
  | .dir n sub rest =>
    if skip n then walkChunks skip rest
    else (n, .dirC (assembleWalk (walkChunks skip sub))) :: walkChunks skip rest

/-- All (relative path, bytes) pairs the zip loop collects for a staged
tree, in its deterministic order (`all_files` with the data read per file). -/
def walkTree (skip : String → Bool) (t : FSTree) : List (List String × List Nat) :=
  assembleWalk (walkChunks skip t)

/-- `zipfile.ZIP_DEFLATED`. -/
def ZIP_DEFLATED : Nat := 8

/-- One archive entry as written through `zipfile.ZipInfo` + `writestr`. -/
structure ZipEntry where
  arcname : String
  data : List Nat
  date_time : Nat × Nat × Nat × Nat × Nat × Nat
  external_attr : Nat
  compress_type : Nat
  deriving DecidableEq

/-- The `ZipInfo` construction shared by both builders: fixed timestamp
1980-01-01 00:00:00, fixed permissions `0o644 << 16`, fixed compression
method, arcname the `/`-joined relative path. -/
def pinEntry (e : List String × List Nat) : ZipEntry :=
  { arcname := String.intercalate "/" e.1
    data := e.2
    date_time := (1980, 1, 1, 0, 0, 0)
    external_attr := 0o644 <<< 16
    compress_type := ZIP_DEFLATED }

/-- Entry sequence of the archive produced by `create_function_zip` over a
staged tree (its walk prunes `cmd` directories). -/
def create_function_zip_entries (staged : FSTree) : List ZipEntry :=
  (walkTree (fun d => d == "cmd") staged).map pinEntry

/-- Entry sequence of the archive produced by `create_handler_zip` over a
staged tree. -/
def create_handler_zip_entries (staged : FSTree) : List ZipEntry :=
  (walkTree (fun _ => false) staged).map pinEntry

/-- The staged contents of a tree: its full walk listing with no pruning —
every file path with its bytes, metadata-free and in canonical sorted
order.  Two trees have the same staged file contents exactly when their
listings coincide. -/
def listing (t : FSTree) : List (List String × List Nat) := walkTree (fun _ => false) t

/-- Appending two sibling chains. -/
def chainAppend : FSTree → FSTree → FSTree
  | .nil, t => t
  | .file n c mt md rest, t => .file n c mt md (chainAppend rest t)
  | .dir n sub rest, t => .dir n sub (chainAppend rest t)

/-- Filesystem-nondeterminism model: reverses every directory's enumeration
order and perturbs every file's mtime and permission bits, leaving names
and bytes unchanged. -/
def scramble : FSTree → FSTree
  | .nil => .nil
  | .file n c mt md rest => chainAppend (scramble rest) (.file n c (mt + 1) (md + 73) .nil)
  | .dir n sub rest => chainAppend (scramble rest) (.dir n (scramble sub) .nil)

/-- Names of a sibling chain, in enumeration order. -/
def chainNames : FSTree → List String
  | .nil => []
  | .file n _ _ _ rest => n :: chainNames rest
  | .dir n _ rest => n :: chainNames rest

/-- Well-formedness of a staged tree: within each directory the entry names
are distinct, as they are on a real filesystem. -/
def wfTree : FSTree → Bool
  | .nil => true
  | .file n _ _ _ rest => decide (n ∉ chainNames rest) && wfTree rest
  | .dir n sub rest => decide (n ∉ chainNames rest) && wfTree sub && wfTree rest

/-- Keep an archive path when none of its directory segments is pruned. -/
def keepPath (skip : String → Bool) (p : List String) : Bool :=
  p.dropLast.all (fun s => !skip s)

/-- Restriction of a listing to the paths a pruning walk keeps. -/
def filterSkip (skip : String → Bool) (es : List (List String × List Nat)) :
    List (List String × List Nat) :=
  es.filter (fun e => keepPath skip e.1)

/-- Chunk-level restriction corresponding to `filterSkip`. -/
def chunkFilter (skip : String → Bool) (chunks : List (String × WalkChunk)) :
    List (String × WalkChunk) :=
  chunks.filterMap (fun c =>
    match c.2 with
    | .fileC content => some (c.1, .fileC content)
    | .dirC es => if skip c.1 then none else some (c.1, .dirC (filterSkip skip es)))

/-- Directory-chunk restriction for a pruned walk: a pruned name is
dropped, a kept one has its entries restricted. -/
def dirPrune (skip : String → Bool) (d : String × List (List String × List Nat)) :
    Option (String × List (List String × List Nat)) :=
  if skip d.1 then none else some (d.1, filterSkip skip d.2)

/-- Name order on association-list entries (the order `sorted` /
`list.sort` use on the names). -/
def leKey {β : Type} (a b : String × β) : Prop := strLeB a.1.data b.1.data = true

/-! ## `build_typescript_zips.py`: run phases -/

/-- How `create_handler_zip` stages the `shared/` tree. -/
inductive SharedStaging where
  | prunedCopy (required_paths : List String)
  | fullCopy
  | noShared
  deriving DecidableEq

/-- The shared-tree staging branch of `create_handler_zip`
(`if ENABLE_PRUNING and modules_config is not None and shared_dir.exists()`
… `elif shared_dir.exists()`): pruning needs the flag, a loaded registry
and an existing `shared/`; otherwise the whole `shared/` tree is copied. -/
def sharedStagingPlan (enable_pruning : Bool) (modules_config : Option ModulesConfig)
    (sharedExists : Bool) (deep_imports barrel_symbols : List String) : SharedStaging :=
  match enable_pruning, modules_config, sharedExists with
  | true, some cfg, true =>
    .prunedCopy (get_module_paths (resolve_modules deep_imports barrel_symbols cfg) cfg)
  | _, _, true => .fullCopy
  | _, _, false => .noShared

/-- Outcome of the registry-loading phase of `main` in
build_typescript_zips.py. -/
inductive RunPhase where
  | aborted
  | build (pruning : Bool) (modules_config : Option ModulesConfig) (handlers : List String)
  deriving DecidableEq

/-- The registry-loading phase of `main` in build_typescript_zips.py: with
pruning requested, a load failure prints a warning, disables pruning and
continues; every discovered handler is still zipped. -/
def mainTsRun (pruneFlag : Bool) (loadResult : Except String ModulesConfig)
    (handlers : List String) : RunPhase :=
  if pruneFlag then
    match loadResult with
    | .ok cfg => .build true (some cfg) handlers
    | .error _ => .build false none handlers
  else .build false none handlers

/-! ## `validate_shared_modules.py` -/

/-- `get_defined_paths`: all paths declared by any module. -/
def get_defined_paths (cfg : ModulesConfig) : List String :=
  cfg.modules.foldl (fun paths m => supdate paths m.2.paths) []

/-- `validate_paths_exist`; `disk` is the set of paths existing under the
shared directory. -/
def validate_paths_exist (cfg : ModulesConfig) (disk : List String) : List String :=
  cfg.modules.foldl
    (fun errors m =>
      m.2.paths.foldl
        (fun errs path =>
          if path ∈ disk then errs
          else errs ++ ["Module " ++ m.1 ++ " references non-existent path: " ++ path])
        errors)
    []

/-- `validate_dependencies_exist`. -/
def validate_dependencies_exist (cfg : ModulesConfig) : List String :=
  cfg.modules.foldl
    (fun errors m =>
      m.2.depends_on.foldl
        (fun errs dep =>
          if dep ∈ moduleNames cfg then errs
          else errs ++ ["Module " ++ m.1 ++ " depends on unknown module: " ++ dep])
        errors)
    []

/-- `validate_import_patterns`. -/
def validate_import_patterns (cfg : ModulesConfig) : List String :=
  cfg.import_patterns.foldl
    (fun errors p =>
      p.2.vals.foldl
        (fun errs m =>
          if m ∈ moduleNames cfg then errs
          else errs ++ ["Import pattern " ++ p.1 ++ " references unknown module: " ++ m])
        errors)
    []

/-- `validate_barrel_exports`.  `package_json` is `none` when the shared
`package.json` is missing (the check then returns no errors), otherwise the
list of subpath keys of its `exports` table.  The per-key export
configuration is irrelevant: the code only inspects it under
`if not barrel_file.exists()`, where both branches `continue`, so a subpath
whose barrel file is missing on disk never produces an error. -/
def validate_barrel_exports (cfg : ModulesConfig) (disk : List String)
    (package_json : Option (List String)) : List String :=
  match package_json with
  | none => []
  | some exports =>
    exports.foldl
      (fun errors subpath =>
        if subpath = "." ∨ '*' ∈ subpath.data then errors
        else
          let clean_subpath := pyLStripDotSlash subpath
          let barrel_path := "src/" ++ clean_subpath ++ "/index.ts"
          if barrel_path ∉ disk then errors
          else
            let dir_path := "src/" ++ clean_subpath
            if barrel_path ∈ get_defined_paths cfg ∨ dir_path ∈ get_defined_paths cfg then
              errors
            else errors ++ ["Package.json export " ++ subpath ++
              " needs barrel module: " ++ barrel_path ++
              " is not included in any module paths"])
      []

/-- The error aggregation of `main` in validate_shared_modules.py (warnings
are kept separately and do not fail the check; a nonempty error list makes
the run exit 1). -/
def validator_all_errors (cfg : ModulesConfig) (disk : List String)
    (package_json : Option (List String)) : List String :=
  validate_paths_exist cfg disk ++ validate_dependencies_exist cfg ++
    validate_import_patterns cfg ++ validate_barrel_exports cfg disk package_json

/-! ## Concrete registries used in counterexamples and witnesses -/

/-- Name of the i-th module of the chain registry (single code point, to
keep kernel evaluation cheap). -/
def chainName (i : Nat) : String := String.singleton (Char.ofNat (65 + i))

/-- A registry whose modules form a 52-deep dependency chain
`c_0 → c_1 → … → c_51` rooted at an `always_include` module: its closure
needs more passes than the safety ceiling allows. -/
def chainCfg : ModulesConfig :=
  { modules :=
      (List.range 52).map (fun i =>
        (chainName i,
          { paths := []
            depends_on := if i = 51 then [] else [chainName (i + 1)]
            always_include := i == 0 }))
    import_patterns := [] }

/-- The two-module registry of the spec's concrete scenario: `core` is
`always_include`, `net` depends on `core`. -/
def scenarioCfg : ModulesConfig :=
  { modules :=
      [("core", { paths := ["lib/core"], depends_on := [], always_include := true }),
       ("net", { paths := ["lib/net"], depends_on := ["core"], always_include := false })]
    import_patterns := [("@fitglue/shared/net", .str "net")] }

/-- A registry whose paths all exist (it declares none) and whose
dependencies all resolve (it declares none), but whose only import pattern
names an undefined module. -/
def ghostPatternCfg : ModulesConfig :=
  { modules := [("a", { paths := [], depends_on := [], always_include := false })]
    import_patterns := [("@fitglue/shared/ghost", .str "ghost")] }

/-- A registry with a dangling dependency edge. -/
def badDepCfg : ModulesConfig :=
  { modules := [("a", { paths := [], depends_on := ["ghost"], always_include := false })]
    import_patterns := [] }

/-! # Theorems -/

set_option maxRecDepth 100000

/-! ## Container helper lemmas -/

theorem mem_sadd {α : Type} [DecidableEq α] {s : List α} {x y : α} :
    y ∈ sadd s x ↔ y ∈ s ∨ y = x := by
  unfold sadd
  split
  · constructor
    · exact Or.inl
    · rintro (h | rfl) <;> assumption
  · simp [List.mem_append]

theorem sadd_superset {α : Type} [DecidableEq α] (s : List α) (x : α) : s ⊆ sadd s x :=
  fun _ hy => mem_sadd.mpr (Or.inl hy)

theorem supdate_cons {α : Type} [DecidableEq α] (s : List α) (x : α) (t : List α) :
    supdate s (x :: t) = supdate (sadd s x) t := rfl

theorem mem_supdate {α : Type} [DecidableEq α] {s xs : List α} {y : α} :
    y ∈ supdate s xs ↔ y ∈ s ∨ y ∈ xs := by
  induction xs generalizing s with
  | nil => simp [supdate]
  | cons x t ih =>
    rw [supdate_cons, ih, mem_sadd]
    simp only [List.mem_cons]
    tauto

theorem supdate_superset {α : Type} [DecidableEq α] (s xs : List α) : s ⊆ supdate s xs :=
  fun _ hy => mem_supdate.mpr (Or.inl hy)

theorem supdate_shape {α : Type} [DecidableEq α] (xs : List α) :
    ∀ s : List α, ∃ extra, supdate s xs = s ++ extra ∧ ∀ y ∈ extra, y ∉ s ∧ y ∈ xs := by
  induction xs with
  | nil => exact fun s => ⟨[], by simp [supdate], by simp⟩
  | cons x t ih =>
    intro s
    rw [supdate_cons]
    by_cases hx : x ∈ s
    · have hs : sadd s x = s := by simp [sadd, hx]
      rw [hs]
      obtain ⟨extra, heq, hmem⟩ := ih s
      exact ⟨extra, heq, fun y hy => ⟨(hmem y hy).1, List.mem_cons_of_mem x (hmem y hy).2⟩⟩
    · have hs : sadd s x = s ++ [x] := by simp [sadd, hx]
      rw [hs]
      obtain ⟨extra, heq, hmem⟩ := ih (s ++ [x])
      refine ⟨x :: extra, by simpa using heq, ?_⟩
      intro y hy
      rcases List.mem_cons.mp hy with rfl | hy'
      · exact ⟨hx, List.mem_cons_self _ _⟩
      · have h1 := (hmem y hy').1
        have h2 := (hmem y hy').2
        constructor
        · intro hc; exact h1 (List.mem_append_left _ hc)
        · exact List.mem_cons_of_mem x h2

theorem dictGet_mem {β : Type} {k : String} {l : List (String × β)} {v : β}
    (h : dictGet k l = some v) : (k, v) ∈ l := by
  induction l with
  | nil => simp [dictGet] at h
  | cons p t ih =>
    obtain ⟨k', v'⟩ := p
    rw [dictGet] at h
    split at h
    · rename_i heq
      obtain rfl : v' = v := by injection h
      subst heq
      exact List.mem_cons_self _ _
    · exact List.mem_cons_of_mem _ (ih h)

theorem foldl_superset {α β : Type} (f : List α → β → List α)
    (hf : ∀ acc x, acc ⊆ f acc x) :
    ∀ (l : List β) (acc : List α), acc ⊆ l.foldl f acc := by
  intro l
  induction l with
  | nil => exact fun _ _ h => h
  | cons x t ih => exact fun acc y hy => ih (f acc x) (hf acc x hy)

theorem foldl_id {α β : Type} (f : α → β → α) :
    ∀ (l : List β) (acc : α), (∀ x ∈ l, ∀ a, f a x = a) → l.foldl f acc = acc := by
  intro l
  induction l with
  | nil => intro acc _; rfl
  | cons x t ih =>
    intro acc h
    rw [List.foldl_cons, h x (List.mem_cons_self _ _), ih]
    intro y hy a
    exact h y (List.mem_cons_of_mem _ hy) a

theorem mem_foldl_sadd_map {α β : Type} [DecidableEq α] (f : β → α) :
    ∀ (l : List β) (init : List α) (x : α),
      x ∈ l.foldl (fun acc b => sadd acc (f b)) init ↔ x ∈ init ∨ ∃ b ∈ l, x = f b := by
  intro l
  induction l with
  | nil => simp
  | cons b t ih =>
    intro init x
    rw [List.foldl_cons, ih, mem_sadd]
    simp only [List.mem_cons]
    constructor
    · rintro ((h | h) | ⟨b', hb', rfl⟩)
      · exact Or.inl h
      · exact Or.inr ⟨b, Or.inl rfl, h⟩
      · exact Or.inr ⟨b', Or.inr hb', rfl⟩
    · rintro (h | ⟨b', (rfl | hb'), rfl⟩)
      · exact Or.inl (Or.inl h)
      · exact Or.inl (Or.inr rfl)
      · exact Or.inr ⟨b', hb', rfl⟩

/-! ## Closure-loop lemmas (`resolve_modules`) -/

theorem closureStep_superset (cfg : ModulesConfig) (req : List String) (m : String) :
    req ⊆ closureStep cfg req m := by
  unfold closureStep
  cases dictGet m cfg.modules with
  | none => exact fun _ h => h
  | some mc => exact supdate_superset _ _

theorem closureStep_deps (cfg : ModulesConfig) (req : List String) (m : String) :
    ∀ d ∈ depsOf cfg m, d ∈ closureStep cfg req m := by
  intro d hd
  unfold closureStep
  unfold depsOf at hd
  cases h : dictGet m cfg.modules with
  | none => rw [h] at hd; simp [Option.elim] at hd
  | some mc =>
    rw [h] at hd
    simp only [Option.elim] at hd
    exact mem_supdate.mpr (Or.inr hd)

theorem closureStep_shape (cfg : ModulesConfig) (req : List String) (m : String) :
    ∃ extra, closureStep cfg req m = req ++ extra ∧
      ∀ y ∈ extra, y ∉ req ∧ y ∈ depPool cfg := by
  unfold closureStep
  cases h : dictGet m cfg.modules with
  | none => exact ⟨[], by simp, by simp⟩
  | some mc =>
    obtain ⟨extra, heq, hmem⟩ := supdate_shape mc.depends_on req
    refine ⟨extra, heq, fun y hy => ⟨(hmem y hy).1, ?_⟩⟩
    exact List.mem_flatMap.mpr ⟨(m, mc), dictGet_mem h, (hmem y hy).2⟩

theorem closurePass_superset (cfg : ModulesConfig) (req : List String) :
    req ⊆ closurePass cfg req :=
  foldl_superset (closureStep cfg) (closureStep_superset cfg) req req

theorem closurePass_deps_mem (cfg : ModulesConfig) (req : List String) :
    ∀ m ∈ req, ∀ d ∈ depsOf cfg m, d ∈ closurePass cfg req := by
  suffices h : ∀ (l acc : List String), ∀ m ∈ l, ∀ d ∈ depsOf cfg m,
      d ∈ l.foldl (closureStep cfg) acc by
    exact fun m hm d hd => h req req m hm d hd
  intro l
  induction l with
  | nil => simp
  | cons x t ih =>
    intro acc m hm d hd
    rw [List.foldl_cons]
    rcases List.mem_cons.mp hm with rfl | hm'
    · exact foldl_superset (closureStep cfg) (closureStep_superset cfg) t _
        (closureStep_deps cfg acc m d hd)
    · exact ih _ m hm' d hd

theorem foldl_closureStep_shape (cfg : ModulesConfig) (l : List String) :
    ∀ (acc base : List String), base ⊆ acc →
      ∃ extra, l.foldl (closureStep cfg) acc = acc ++ extra ∧
        ∀ y ∈ extra, y ∉ base ∧ y ∈ depPool cfg := by
  induction l with
  | nil => exact fun acc base _ => ⟨[], by simp, by simp⟩
  | cons x t ih =>
    intro acc base hb
    rw [List.foldl_cons]
    obtain ⟨e1, he1, hm1⟩ := closureStep_shape cfg acc x
    obtain ⟨e2, he2, hm2⟩ := ih (closureStep cfg acc x) base
      (fun y hy => closureStep_superset cfg acc x (hb hy))
    refine ⟨e1 ++ e2, by rw [he2, he1, List.append_assoc], ?_⟩
    intro y hy
    rcases List.mem_append.mp hy with hy1 | hy2
    · exact ⟨fun hc => (hm1 y hy1).1 (hb hc), (hm1 y hy1).2⟩
    · exact hm2 y hy2

theorem closurePass_shape (cfg : ModulesConfig) (req : List String) :
    ∃ extra, closurePass cfg req = req ++ extra ∧
      ∀ y ∈ extra, y ∉ req ∧ y ∈ depPool cfg :=
  foldl_closureStep_shape cfg req req req (fun _ h => h)

theorem closurePass_fixpoint_closed (cfg : ModulesConfig) (req : List String)
    (h : closurePass cfg req = req) : ClosedUnderDeps cfg req :=
  fun m hm d hd => h ▸ closurePass_deps_mem cfg req m hm d hd

theorem closurePass_measure_lt (cfg : ModulesConfig) (req : List String)
    (hne : closurePass cfg req ≠ req) :
    ((depPool cfg).filter fun d => decide (d ∉ closurePass cfg req)).length <
      ((depPool cfg).filter fun d => decide (d ∉ req)).length := by
  obtain ⟨extra, heq, hmem⟩ := closurePass_shape cfg req
  have hextra : extra ≠ [] := by
    intro h
    exact hne (by rw [heq, h, List.append_nil])
  obtain ⟨y, hy⟩ := List.exists_mem_of_ne_nil extra hextra
  obtain ⟨hynotin, hypool⟩ := hmem y hy
  have hsub : ((depPool cfg).filter fun d => decide (d ∉ closurePass cfg req)).Sublist
      ((depPool cfg).filter fun d => decide (d ∉ req)) := by
    apply List.monotone_filter_right
    intro a ha
    simp only [decide_eq_true_eq] at *
    intro hc
    exact ha (closurePass_superset cfg req hc)
  rcases Nat.lt_or_ge
    ((depPool cfg).filter fun d => decide (d ∉ closurePass cfg req)).length
    ((depPool cfg).filter fun d => decide (d ∉ req)).length with hlt | hge
  · exact hlt
  · exfalso
    have heq2 := hsub.eq_of_length (Nat.le_antisymm hsub.length_le hge)
    have hy1 : y ∈ (depPool cfg).filter fun d => decide (d ∉ req) :=
      List.mem_filter.mpr ⟨hypool, by simpa using hynotin⟩
    rw [← heq2] at hy1
    have hy2 := (List.mem_filter.mp hy1).2
    simp only [decide_eq_true_eq] at hy2
    exact hy2 (by rw [heq]; exact List.mem_append_right _ hy)

theorem closureLoop_reaches_fixpoint (cfg : ModulesConfig) :
    ∀ (fuel : Nat) (req : List String),
      ((depPool cfg).filter fun d => decide (d ∉ req)).length < fuel →
      closurePass cfg (closureLoop cfg fuel req) = closureLoop cfg fuel req := by
  intro fuel
  induction fuel with
  | zero => intro req h; omega
  | succ n ih =>
    intro req h
    rw [closureLoop]
    split
    · rename_i heq
      rw [heq]
      exact heq
    · rename_i hne
      apply ih
      have hlt := closurePass_measure_lt cfg req hne
      omega

theorem closureLoop_superset (cfg : ModulesConfig) :
    ∀ (fuel : Nat) (req : List String), req ⊆ closureLoop cfg fuel req := by
  intro fuel
  induction fuel with
  | zero => exact fun req _ h => h
  | succ n ih =>
    intro req
    rw [closureLoop]
    split
    · rename_i heq
      intro y hy
      exact heq ▸ closurePass_superset cfg req hy
    · exact fun y hy => ih _ (closurePass_superset cfg req hy)

/-! ## Claims C1, C3, C4, C5 -/

/-- C1: when import extraction fails (the `go list` invocation raises
`CalledProcessError`), `get_pkg_dependencies` signals the failure with
`None`, the staging plan of `create_function_zip` falls back to the full
copy, and the staged `pkg/` set is the entire shared tree — never an empty
or partial set. -/
theorem claim_C1_extraction_failsafe (err : String) (pkgUniverse : List String) :
    get_pkg_dependencies (.error err) = none ∧
    stagePkgPlan true (.error err) = .full ∧
    stagedPkgDirs (stagePkgPlan true (.error err)) pkgUniverse = pkgUniverse :=
  ⟨rfl, rfl, rfl⟩

/-- C3 (amended): the set returned by `resolve_modules` is closed under the
declared dependency relation provided the registry is small enough for the
closure to converge within the 50-iteration safety ceiling — fewer than 50
declared dependency references suffice.  (As stated for every registry the
claim fails: see the counterexample, a 52-deep chain.) -/
theorem claim_C3_closure_complete (cfg : ModulesConfig)
    (deep_imports barrel_symbols : List String)
    (hsmall : (depPool cfg).length < max_iterations) :
    ClosedUnderDeps cfg (resolve_modules deep_imports barrel_symbols cfg) := by
  apply closurePass_fixpoint_closed
  apply closureLoop_reaches_fixpoint
  calc ((depPool cfg).filter fun d =>
          decide (d ∉ seedModules deep_imports barrel_symbols cfg)).length
      ≤ (depPool cfg).length := List.length_filter_le _ _
    _ < max_iterations := hsmall

theorem claim_C3_closure_complete_witness :
    (depPool scenarioCfg).length < max_iterations ∧
      ClosedUnderDeps scenarioCfg
        (resolve_modules ["@fitglue/shared/net/client"] [] scenarioCfg) :=
  ⟨by decide, claim_C3_closure_complete scenarioCfg ["@fitglue/shared/net/client"] [] (by decide)⟩

/-- C3 counterexample: on the 52-deep chain registry the loop stops at the
ceiling and the returned set is not closed under `depends_on`. -/
theorem claim_C3_counterexample :
    ¬ ClosedUnderDeps chainCfg (resolve_modules [] [] chainCfg) := by
  intro h
  have h50 : chainName 50 ∈ resolve_modules [] [] chainCfg := by decide
  have h51 : chainName 51 ∈ depsOf chainCfg (chainName 50) := by decide
  have hmem := h (chainName 50) h50 (chainName 51) h51
  have hnot : chainName 51 ∉ resolve_modules [] [] chainCfg := by decide
  exact hnot hmem

/-- C4 (amended): `resolve_modules` raises no diagnostic; it is a total
function that always returns the accumulated set — in particular the seed
is always contained in the result, even when the ceiling is reached and the
result is still not closed (see the counterexample). -/
theorem claim_C4_silent_truncation (cfg : ModulesConfig)
    (deep_imports barrel_symbols : List String) :
    ∀ m ∈ seedModules deep_imports barrel_symbols cfg,
      m ∈ resolve_modules deep_imports barrel_symbols cfg :=
  fun _ hm => closureLoop_superset cfg max_iterations _ hm

theorem claim_C4_silent_truncation_witness :
    chainName 0 ∈ seedModules [] [] chainCfg ∧
      chainName 0 ∈ resolve_modules [] [] chainCfg :=
  ⟨by decide, claim_C4_silent_truncation chainCfg [] [] (chainName 0) (by decide)⟩

/-- C4 counterexample: on the 52-deep chain the iteration hits the ceiling
and `resolve_modules` returns the truncated set — the 51st module of the
chain is a declared dependency of a returned module yet missing from the
result, and no error value exists (the function returns a plain set). -/
theorem claim_C4_counterexample :
    chainName 50 ∈ resolve_modules [] [] chainCfg ∧
    chainName 51 ∈ depsOf chainCfg (chainName 50) ∧
    chainName 51 ∉ resolve_modules [] [] chainCfg :=
  ⟨by decide, by decide, by decide⟩

/-- C5 (amended): a registry-load failure in `main` of
build_typescript_zips.py does not abort the run: pruning is disabled, no
default registry is substituted (the config stays `None`), every discovered
handler is still built, and each handler with an existing `shared/` tree
gets the full shared copy. -/
theorem claim_C5_load_failure_continues (err : String) (handlers : List String)
    (deep_imports barrel_symbols : List String) :
    mainTsRun true (.error err) handlers = .build false none handlers ∧
    sharedStagingPlan false none true deep_imports barrel_symbols = .fullCopy :=
  ⟨rfl, rfl⟩

/-- C5 counterexample: with a failing registry load the run is not aborted —
both discovered handlers are still processed, with pruning disabled. -/
theorem claim_C5_counterexample :
    mainTsRun true (.error "FileNotFoundError: shared_modules.json")
        ["activity-handler", "user-handler"] ≠ RunPhase.aborted ∧
    mainTsRun true (.error "FileNotFoundError: shared_modules.json")
        ["activity-handler", "user-handler"] =
      .build false none ["activity-handler", "user-handler"] :=
  ⟨by decide, rfl⟩

/-! ## Claim C6: ancestor closure of materialized paths -/

theorem mem_get_pkg_directories {pkg_deps : List (List String)} {x : List String} :
    x ∈ get_pkg_directories pkg_deps ↔
      ∃ dep ∈ pkg_deps, x = dep ∨
        ∃ i, i ∈ List.range' 1 (dep.length - 1) ∧ x = dep.take i := by
  suffices h : ∀ (l : List (List String)) (init : List (List String)),
      x ∈ l.foldl (fun directories dep =>
        (List.range' 1 (dep.length - 1)).foldl
          (fun ds i => sadd ds (dep.take i)) (sadd directories dep)) init ↔
      x ∈ init ∨ ∃ dep ∈ l, x = dep ∨
        ∃ i, i ∈ List.range' 1 (dep.length - 1) ∧ x = dep.take i by
    rw [get_pkg_directories]
    rw [h]
    simp
  intro l
  induction l with
  | nil => simp
  | cons dep t ih =>
    intro init
    rw [List.foldl_cons, ih, mem_foldl_sadd_map, mem_sadd]
    constructor
    · rintro (((h | h) | ⟨i, hi, rfl⟩) | ⟨d, hd, h⟩)
      · exact Or.inl h
      · exact Or.inr ⟨dep, List.mem_cons_self _ _, Or.inl h⟩
      · exact Or.inr ⟨dep, List.mem_cons_self _ _, Or.inr ⟨i, hi, rfl⟩⟩
      · exact Or.inr ⟨d, List.mem_cons_of_mem _ hd, h⟩
    · rintro (h | ⟨d, hd, h⟩)
      · exact Or.inl (Or.inl (Or.inl h))
      · rcases List.mem_cons.mp hd with rfl | hd'
        · rcases h with rfl | ⟨i, hi, rfl⟩
          · exact Or.inl (Or.inl (Or.inr rfl))
          · exact Or.inl (Or.inr ⟨i, hi, rfl⟩)
        · exact Or.inr ⟨d, hd', h⟩

/-- C6 (amended): the Go materializer `get_pkg_directories` is closed under
taking proper ancestor prefixes of its members: whenever a path with
segments `a/b/c` is included, so are `a` and `a/b`.  (The TypeScript
materializer `get_module_paths` performs no such closure: see the
counterexample.) -/
theorem claim_C6_ancestor_closure (pkg_deps : List (List String)) (p : List String)
    (hp : p ∈ get_pkg_directories pkg_deps) (k : Nat) (hk0 : 0 < k) (hk : k < p.length) :
    p.take k ∈ get_pkg_directories pkg_deps := by
  obtain ⟨dep, hdep, hform⟩ := mem_get_pkg_directories.mp hp
  rcases hform with heq | ⟨i, hi, heq⟩
  · -- p is the dependency itself: the inner loop adds `take k` directly
    rw [heq] at hk ⊢
    apply mem_get_pkg_directories.mpr
    refine ⟨dep, hdep, Or.inr ⟨k, ?_, rfl⟩⟩
    rw [List.mem_range'_1]
    omega
  · -- p is an ancestor `take i`: a shorter ancestor is added as well
    rw [heq] at hk ⊢
    rw [List.length_take] at hk
    have hki : k < i := lt_of_lt_of_le hk (min_le_left _ _)
    have hkd : k < dep.length := lt_of_lt_of_le hk (min_le_right _ _)
    rw [List.take_take]
    have hmin : min k i = k := Nat.min_eq_left (Nat.le_of_lt hki)
    rw [hmin]
    apply mem_get_pkg_directories.mpr
    refine ⟨dep, hdep, Or.inr ⟨k, ?_, rfl⟩⟩
    rw [List.mem_range'_1]
    omega

theorem claim_C6_ancestor_closure_witness :
    ["infrastructure", "pubsub", "client"] ∈
        get_pkg_directories [["infrastructure", "pubsub", "client"]] ∧
    ["infrastructure"] ∈ get_pkg_directories [["infrastructure", "pubsub", "client"]] ∧
    ["infrastructure", "pubsub"] ∈
        get_pkg_directories [["infrastructure", "pubsub", "client"]] :=
  ⟨by decide,
   claim_C6_ancestor_closure [["infrastructure", "pubsub", "client"]]
     ["infrastructure", "pubsub", "client"] (by decide) 1 (by decide) (by decide),
   claim_C6_ancestor_closure [["infrastructure", "pubsub", "client"]]
     ["infrastructure", "pubsub", "client"] (by decide) 2 (by decide) (by decide)⟩

/-- C6 counterexample: the TypeScript materializer `get_module_paths` only
collects the declared paths — for a module declaring the nested path
`a/b/c` the result contains neither ancestor `a` nor `a/b`, so the claim
fails for `get_module_paths`. -/
theorem claim_C6_counterexample :
    "a/b/c" ∈ get_module_paths ["m"]
        ⟨[("m", ⟨["a/b/c"], [], false⟩)], []⟩ ∧
    "a" ∉ get_module_paths ["m"] ⟨[("m", ⟨["a/b/c"], [], false⟩)], []⟩ ∧
    "a/b" ∉ get_module_paths ["m"] ⟨[("m", ⟨["a/b/c"], [], false⟩)], []⟩ :=
  ⟨by decide, by decide, by decide⟩

/-! ## Claim C7: longest-pattern selection -/

/-- C7: with exactly two import patterns, one a strict prefix of the other
(hence strictly shorter), a deep reference that both patterns prefix
resolves to exactly the modules mapped by the longer pattern, in either
registry order, and none from the shorter one. -/
theorem claim_C7_longest_pattern_wins (p1 p2 : String) (v1 v2 : PatternVal) (imp : String)
    (h1 : pyStartsWith imp p1 = true) (h2 : pyStartsWith imp p2 = true)
    (hlen : p1.length < p2.length) :
    deepImportModules [(p1, v1), (p2, v2)] imp = v2.vals ∧
    deepImportModules [(p2, v2), (p1, v1)] imp = v2.vals := by
  have hne : p2 ≠ p1 := by
    intro h
    rw [h] at hlen
    exact Nat.lt_irrefl _ hlen
  have hp2 : (0:Nat) < p2.length := Nat.lt_of_le_of_lt (Nat.zero_le _) hlen
  constructor
  · have e1 : bestPatternMatch [(p1, v1), (p2, v2)] imp = (some p2, p2.length) := by
      by_cases h0 : (0:Nat) < p1.length
      · simp only [bestPatternMatch, List.foldl_cons, List.foldl_nil, h1, h2,
          Bool.true_and, decide_eq_true h0, if_true, decide_eq_true hlen]
      · simp only [bestPatternMatch, List.foldl_cons, List.foldl_nil, h1, h2,
          Bool.true_and, decide_eq_false h0, if_false, decide_eq_true hp2]
        simp [hp2]
    simp only [deepImportModules, e1, dictGet, hne, if_false, if_true]
  · have e2 : bestPatternMatch [(p2, v2), (p1, v1)] imp = (some p2, p2.length) := by
      have hnlt : ¬ p2.length < p1.length := Nat.lt_asymm hlen
      simp only [bestPatternMatch, List.foldl_cons, List.foldl_nil, h1, h2,
        Bool.true_and, decide_eq_true hp2, if_true, decide_eq_false hnlt, if_false,
        Bool.and_false]
      simp
    simp only [deepImportModules, e2, dictGet]
    simp

theorem claim_C7_longest_pattern_wins_witness :
    pyStartsWith "@fitglue/shared/dist/types/pb/user" "@fitglue/shared/" = true ∧
    pyStartsWith "@fitglue/shared/dist/types/pb/user" "@fitglue/shared/dist/types/" = true ∧
    ("@fitglue/shared/" : String).length < ("@fitglue/shared/dist/types/" : String).length ∧
    deepImportModules
      [("@fitglue/shared/", .str "everything"),
       ("@fitglue/shared/dist/types/", .list ["types"])]
      "@fitglue/shared/dist/types/pb/user" = ["types"] :=
  ⟨by decide, by decide, by decide,
   (claim_C7_longest_pattern_wins "@fitglue/shared/" "@fitglue/shared/dist/types/"
     (.str "everything") (.list ["types"]) "@fitglue/shared/dist/types/pb/user"
     (by decide) (by decide) (by decide)).1⟩

/-! ## Claim C9: validator soundness -/

theorem foldl_ne_nil {β : Type} (f : List String → β → List String)
    (hf : ∀ a x, a ≠ [] → f a x ≠ []) :
    ∀ (l : List β) (acc : List String), acc ≠ [] → l.foldl f acc ≠ [] := by
  intro l
  induction l with
  | nil => exact fun acc h => h
  | cons x t ih => exact fun acc h => ih (f acc x) (hf acc x h)

theorem validate_dependencies_exist_ne_nil (cfg : ModulesConfig)
    (m : String × ModuleConfig) (hm : m ∈ cfg.modules) (dep : String)
    (hdep : dep ∈ m.2.depends_on) (hbad : dep ∉ moduleNames cfg) :
    validate_dependencies_exist cfg ≠ [] := by
  obtain ⟨l1, l2, hsplit⟩ := List.append_of_mem hm
  unfold validate_dependencies_exist
  rw [hsplit, List.foldl_append, List.foldl_cons]
  apply foldl_ne_nil
  · intro a x ha
    apply foldl_ne_nil
    · intro a' y ha'
      dsimp only
      split
      · exact ha'
      · simp
    · exact ha
  · obtain ⟨d1, d2, hdsplit⟩ := List.append_of_mem hdep
    rw [hdsplit, List.foldl_append, List.foldl_cons]
    apply foldl_ne_nil
    · intro a' y ha'
      dsimp only
      split
      · exact ha'
      · simp
    · dsimp only
      rw [if_neg hbad]
      simp

theorem validate_paths_exist_eq_nil (cfg : ModulesConfig) (disk : List String)
    (H : ∀ m ∈ cfg.modules, ∀ path ∈ m.2.paths, path ∈ disk) :
    validate_paths_exist cfg disk = [] := by
  unfold validate_paths_exist
  apply foldl_id
  intro m hm a
  apply foldl_id
  intro path hpath a'
  exact if_pos (H m hm path hpath)

theorem validate_dependencies_exist_eq_nil (cfg : ModulesConfig)
    (H : ∀ m ∈ cfg.modules, ∀ dep ∈ m.2.depends_on, dep ∈ moduleNames cfg) :
    validate_dependencies_exist cfg = [] := by
  unfold validate_dependencies_exist
  apply foldl_id
  intro m hm a
  apply foldl_id
  intro dep hdep a'
  exact if_pos (H m hm dep hdep)

theorem validate_import_patterns_eq_nil (cfg : ModulesConfig)
    (H : ∀ p ∈ cfg.import_patterns, ∀ mod ∈ p.2.vals, mod ∈ moduleNames cfg) :
    validate_import_patterns cfg = [] := by
  unfold validate_import_patterns
  apply foldl_id
  intro p hp a
  apply foldl_id
  intro mod hmod a'
  exact if_pos (H p hp mod hmod)

theorem validate_barrel_exports_eq_nil (cfg : ModulesConfig) (disk : List String)
    (package_json : Option (List String))
    (H : ∀ exports, package_json = some exports → ∀ subpath ∈ exports,
      subpath ≠ "." → '*' ∉ subpath.data →
      "src/" ++ pyLStripDotSlash subpath ++ "/index.ts" ∈ disk →
      ("src/" ++ pyLStripDotSlash subpath ++ "/index.ts" ∈ get_defined_paths cfg ∨
        "src/" ++ pyLStripDotSlash subpath ∈ get_defined_paths cfg)) :
    validate_barrel_exports cfg disk package_json = [] := by
  unfold validate_barrel_exports
  cases hpj : package_json with
  | none => rfl
  | some exports =>
    apply foldl_id
    intro subpath hsub a
    dsimp only
    by_cases hskip : subpath = "." ∨ '*' ∈ subpath.data
    · exact if_pos hskip
    · rw [if_neg hskip]
      by_cases hdisk : "src/" ++ pyLStripDotSlash subpath ++ "/index.ts" ∈ disk
      · rw [if_neg (by simpa using hdisk)]
        have hne : subpath ≠ "." := fun h => hskip (Or.inl h)
        have hns : '*' ∉ subpath.data := fun h => hskip (Or.inr h)
        exact if_pos (H exports hpj subpath hsub hne hns hdisk)
      · exact if_pos (by simpa using hdisk)

/-- C9 (amended): (a) any registry with a `depends_on` entry naming an
undefined module id makes the validation fail with a nonempty error list;
(b) a registry in which every declared path exists on disk, every
dependency resolves, every import pattern references a defined module, and
every non-wildcard package export whose barrel file exists on disk is
covered by some module declared paths, produces zero errors.  (As stated —
with only the path and dependency conditions — the claim fails: see the
counterexample, whose import pattern names an undefined module.) -/
theorem claim_C9_validator_soundness :
    (∀ (cfg : ModulesConfig) (disk : List String) (package_json : Option (List String))
       (m : String × ModuleConfig), m ∈ cfg.modules →
       ∀ dep ∈ m.2.depends_on, dep ∉ moduleNames cfg →
       validator_all_errors cfg disk package_json ≠ []) ∧
    (∀ (cfg : ModulesConfig) (disk : List String) (package_json : Option (List String)),
       (∀ m ∈ cfg.modules, ∀ path ∈ m.2.paths, path ∈ disk) →
       (∀ m ∈ cfg.modules, ∀ dep ∈ m.2.depends_on, dep ∈ moduleNames cfg) →
       (∀ p ∈ cfg.import_patterns, ∀ mod ∈ p.2.vals, mod ∈ moduleNames cfg) →
       (∀ exports, package_json = some exports → ∀ subpath ∈ exports,
         subpath ≠ "." → '*' ∉ subpath.data →
         "src/" ++ pyLStripDotSlash subpath ++ "/index.ts" ∈ disk →
         ("src/" ++ pyLStripDotSlash subpath ++ "/index.ts" ∈ get_defined_paths cfg ∨
           "src/" ++ pyLStripDotSlash subpath ∈ get_defined_paths cfg)) →
       validator_all_errors cfg disk package_json = []) := by
  constructor
  · intro cfg disk package_json m hm dep hdep hbad hall
    have hd := validate_dependencies_exist_ne_nil cfg m hm dep hdep hbad
    unfold validator_all_errors at hall
    simp only [List.append_eq_nil] at hall
    tauto
  · intro cfg disk package_json H1 H2 H3 H4
    unfold validator_all_errors
    rw [validate_paths_exist_eq_nil cfg disk H1, validate_dependencies_exist_eq_nil cfg H2,
      validate_import_patterns_eq_nil cfg H3, validate_barrel_exports_eq_nil cfg disk _ H4]
    rfl

/-- C9 counterexample: a registry whose declared paths all exist
(vacuously) and whose dependencies all resolve (vacuously), yet validation
reports an error, because its import pattern names an undefined module. -/
theorem claim_C9_counterexample :
    (∀ m ∈ ghostPatternCfg.modules, ∀ path ∈ m.2.paths, path ∈ ([] : List String)) ∧
    (∀ m ∈ ghostPatternCfg.modules, ∀ dep ∈ m.2.depends_on,
      dep ∈ moduleNames ghostPatternCfg) ∧
    validator_all_errors ghostPatternCfg [] none ≠ [] :=
  ⟨by decide, by decide, by decide⟩

theorem claim_C9_validator_soundness_witness :
    validator_all_errors badDepCfg [] none ≠ [] ∧
    validator_all_errors scenarioCfg ["lib/core", "lib/net"] none = [] :=
  ⟨claim_C9_validator_soundness.1 badDepCfg [] none
     ("a", { paths := [], depends_on := ["ghost"], always_include := false })
     (by decide) "ghost" (by decide) (by decide),
   claim_C9_validator_soundness.2 scenarioCfg ["lib/core", "lib/net"] none
     (by decide) (by decide) (by decide) (by intro exports h; cases h)⟩

/-! ## Claim C10: path-substring exclusion in the handler scan -/

theorem isPrefixOf_exists_append (needle : List Char) :
    ∀ hay : List Char, needle.isPrefixOf hay = true ↔ ∃ r, hay = needle ++ r := by
  induction needle with
  | nil => intro hay; simp [List.isPrefixOf]
  | cons a as ih =>
    intro hay
    cases hay with
    | nil => simp [List.isPrefixOf]
    | cons b bs =>
      rw [List.isPrefixOf, Bool.and_eq_true, beq_iff_eq, ih]
      constructor
      · rintro ⟨rfl, r, rfl⟩
        exact ⟨r, rfl⟩
      · rintro ⟨r, heq⟩
        have h1 : a = b := by injection heq with hh _; exact hh.symm
        have h2 : bs = as ++ r := by injection heq
        exact ⟨h1, r, h2⟩

theorem containsSub_exists (needle : List Char) :
    ∀ hay : List Char, containsSub hay needle = true ↔ ∃ l r, hay = l ++ needle ++ r := by
  intro hay
  induction hay with
  | nil =>
    rw [containsSub]
    simp only [Bool.or_false]
    rw [isPrefixOf_exists_append]
    simp [eq_comm, List.append_eq_nil]
  | cons a t ih =>
    rw [containsSub, Bool.or_eq_true, ih, isPrefixOf_exists_append]
    constructor
    · rintro (⟨r, heq⟩ | ⟨l, r, heq⟩)
      · exact ⟨[], r, by simp [heq]⟩
      · exact ⟨a :: l, r, by simp [heq]⟩
    · rintro ⟨l, r, heq⟩
      cases l with
      | nil =>
        left
        exact ⟨r, by simpa using heq⟩
      | cons x xs =>
        right
        have h2 : t = xs ++ needle ++ r := by
          have := heq
          simp only [List.cons_append] at this
          injection this
        exact ⟨xs, r, h2⟩

theorem get_handler_imports_filter (extract : String → List String × List String) :
    ∀ (ts_files : List (String × String)) (acc : List String × List String),
      ts_files.foldl
        (fun acc f =>
          if isExcludedPath f.1 then acc
          else (supdate acc.1 (extract f.2).1, supdate acc.2 (extract f.2).2)) acc =
      accumulate_imports extract (ts_files.filter fun f => !isExcludedPath f.1) acc := by
  intro l
  induction l with
  | nil => intro acc; rfl
  | cons f t ih =>
    intro acc
    rw [List.foldl_cons, List.filter_cons]
    by_cases h : isExcludedPath f.1 = true
    · rw [if_pos h, ih]
      simp [h]
    · have h' : isExcludedPath f.1 = false := by
        cases hb : isExcludedPath f.1
        · rfl
        · exact absurd hb h
      rw [if_neg h, ih]
      simp only [h', Bool.not_false, if_pos]
      rfl

/-- C10: a `.ts` file contributes its imports to `get_handler_imports` if
and only if its full path string contains none of the four excluded
substrings anywhere; consequently a file under any directory whose name
merely contains such a substring (for example `distance`, which contains
`dist`) is silently omitted from the analysis. -/
theorem claim_C10_substring_exclusion (extract : String → List String × List String)
    (ts_files : List (String × String)) :
    get_handler_imports extract ts_files =
      accumulate_imports extract (ts_files.filter fun f => !isExcludedPath f.1) ([], []) ∧
    (∀ p : String, isExcludedPath p = true ↔
      ∃ excl ∈ EXCLUDED_SUBSTRINGS, ∃ l r, p.data = l ++ excl.data ++ r) ∧
    (∀ pre suf : String, isExcludedPath (pre ++ "distance" ++ suf) = true) := by
  refine ⟨get_handler_imports_filter extract ts_files ([], []), ?_, ?_⟩
  · intro p
    rw [isExcludedPath, List.any_eq_true]
    constructor
    · rintro ⟨excl, hexcl, hc⟩
      exact ⟨excl, hexcl, (containsSub_exists excl.data p.data).mp hc⟩
    · rintro ⟨excl, hexcl, hdec⟩
      exact ⟨excl, hexcl, (containsSub_exists excl.data p.data).mpr hdec⟩
  · intro pre suf
    rw [isExcludedPath, List.any_eq_true]
    refine ⟨"dist", by decide, ?_⟩
    rw [pyContains, containsSub_exists]
    refine ⟨pre.data, "ance".data ++ suf.data, ?_⟩
    rw [String.data_append, String.data_append]
    have hdist : ("distance" : String).data = ("dist" : String).data ++ ("ance" : String).data := by
      decide
    rw [hdist]
    simp [List.append_assoc]

theorem claim_C10_substring_exclusion_witness :
    isExcludedPath "src/typescript/handler/distance/util.ts" = true := by
  have h := (claim_C10_substring_exclusion (fun _ => ([], [])) []).2.2
    "src/typescript/handler/" "/util.ts"
  have heq : "src/typescript/handler/" ++ "distance" ++ "/util.ts" =
      "src/typescript/handler/distance/util.ts" := by decide
  rw [heq] at h
  exact h

/-! ## Claim C2: deterministic archive serialization -/

theorem strLeB_refl : ∀ a : List Char, strLeB a a = true := by
  intro a
  induction a with
  | nil => rfl
  | cons x xs ih => simp [strLeB, ih]

theorem strLeB_total : ∀ a b : List Char, strLeB a b = true ∨ strLeB b a = true := by
  intro a
  induction a with
  | nil => intro b; exact Or.inl rfl
  | cons x xs ih =>
    intro b
    cases b with
    | nil => exact Or.inr rfl
    | cons y ys =>
      rcases Nat.lt_trichotomy x.toNat y.toNat with h | h | h
      · left
        simp [strLeB, h]
      · rcases ih ys with h2 | h2
        · left
          simp [strLeB, h, h2]
        · right
          simp [strLeB, h.symm, h2]
      · right
        simp [strLeB, h]

theorem strLeB_trans : ∀ a b c : List Char,
    strLeB a b = true → strLeB b c = true → strLeB a c = true := by
  intro a
  induction a with
  | nil => intro b c _ _; rfl
  | cons x xs ih =>
    intro b c hab hbc
    cases b with
    | nil => simp [strLeB] at hab
    | cons y ys =>
      cases c with
      | nil => simp [strLeB] at hbc
      | cons z zs =>
        rw [strLeB] at hab hbc ⊢
        split_ifs at hab hbc ⊢ <;>
          first
          | rfl
          | omega
          | exact ih ys zs hab hbc

theorem strLeB_antisymm : ∀ a b : List Char,
    strLeB a b = true → strLeB b a = true → a = b := by
  intro a
  induction a with
  | nil =>
    intro b _ hba
    cases b with
    | nil => rfl
    | cons y ys => simp [strLeB] at hba
  | cons x xs ih =>
    intro b hab hba
    cases b with
    | nil => simp [strLeB] at hab
    | cons y ys =>
      rw [strLeB] at hab hba
      by_cases h1 : x.toNat < y.toNat
      · rw [if_neg (Nat.lt_asymm h1), if_pos h1] at hba
        exact absurd hba (by simp)
      · by_cases h2 : y.toNat < x.toNat
        · rw [if_neg h1, if_pos h2] at hab
          exact absurd hab (by simp)
        · have heq : x.toNat = y.toNat := by omega
          have hxy : x = y := Char.eq_of_val_eq (UInt32.toNat.inj heq)
          rw [if_neg h1, if_neg h2] at hab
          rw [if_neg h2, if_neg h1] at hba
          rw [hxy, ih ys hab hba]

theorem insPair_perm {β : Type} (x : String × β) :
    ∀ l : List (String × β), (insPair x l).Perm (x :: l) := by
  intro l
  induction l with
  | nil => exact List.Perm.refl _
  | cons y ys ih =>
    rw [insPair]
    split
    · exact List.Perm.refl _
    · exact (ih.cons y).trans (List.Perm.swap x y ys)

theorem sortPairs_perm {β : Type} : ∀ l : List (String × β), (sortPairs l).Perm l := by
  intro l
  induction l with
  | nil => exact List.Perm.refl _
  | cons x xs ih =>
    rw [sortPairs]
    exact (insPair_perm x (sortPairs xs)).trans (ih.cons x)

theorem insPair_eq_cons {β : Type} (y : String × β) (m : List (String × β))
    (h : ∀ w ∈ m, leKey y w) : insPair y m = y :: m := by
  cases m with
  | nil => rfl
  | cons w ws => exact if_pos (h w (List.mem_cons_self _ _))

theorem insPair_sorted {β : Type} (x : String × β) :
    ∀ l : List (String × β), List.Pairwise leKey l → List.Pairwise leKey (insPair x l) := by
  intro l
  induction l with
  | nil => intro _; exact List.pairwise_singleton _ _
  | cons y ys ih =>
    intro hp
    rw [insPair]
    split
    · rename_i hxy
      refine List.Pairwise.cons ?_ hp
      intro w hw
      rcases List.mem_cons.mp hw with rfl | hw'
      · exact hxy
      · exact strLeB_trans _ _ _ hxy ((List.pairwise_cons.mp hp).1 w hw')
    · rename_i hxy
      have hyx : leKey y x := by
        rcases strLeB_total x.1.data y.1.data with h | h
        · exact absurd h hxy
        · exact h
      refine List.Pairwise.cons ?_ (ih (List.pairwise_cons.mp hp).2)
      intro w hw
      have hw2 := (insPair_perm x ys).mem_iff.mp hw
      rcases List.mem_cons.mp hw2 with rfl | hw'
      · exact hyx
      · exact (List.pairwise_cons.mp hp).1 w hw'

theorem sortPairs_sorted {β : Type} :
    ∀ l : List (String × β), List.Pairwise leKey (sortPairs l) := by
  intro l
  induction l with
  | nil => exact List.Pairwise.nil
  | cons x xs ih => exact insPair_sorted x (sortPairs xs) ih

theorem sorted_perm_nodup_eq {β : Type} :
    ∀ (l1 l2 : List (String × β)), l1.Perm l2 → List.Pairwise leKey l1 →
      List.Pairwise leKey l2 → (l1.map fun p => p.1).Nodup → l1 = l2 := by
  intro l1
  induction l1 with
  | nil =>
    intro l2 hp _ _ _
    exact (List.Perm.eq_nil hp.symm).symm
  | cons a t1 ih =>
    intro l2 hp hs1 hs2 hn
    cases l2 with
    | nil => exact absurd (List.Perm.eq_nil hp) (by simp)
    | cons b t2 =>
      rw [List.map_cons] at hn
      have hnd := List.nodup_cons.mp hn
      have hab : a = b := by
        have ha2 : a ∈ b :: t2 := hp.mem_iff.mp (List.mem_cons_self _ _)
        rcases List.mem_cons.mp ha2 with h | ha2'
        · exact h
        · have hb1 : b ∈ a :: t1 := hp.mem_iff.mpr (List.mem_cons_self _ _)
          rcases List.mem_cons.mp hb1 with h | hb1'
          · exact h.symm
          · exfalso
            have hba : leKey b a := (List.pairwise_cons.mp hs2).1 a ha2'
            have hab' : leKey a b := (List.pairwise_cons.mp hs1).1 b hb1'
            have hkey : a.1 = b.1 :=
              String.ext (strLeB_antisymm a.1.data b.1.data hab' hba)
            have hmem : a.1 ∈ t1.map (fun p => p.1) :=
              List.mem_map.mpr ⟨b, hb1', hkey.symm⟩
            exact hnd.1 hmem
      subst hab
      have hp' := hp.cons_inv
      rw [ih t2 hp' (List.pairwise_cons.mp hs1).2 (List.pairwise_cons.mp hs2).2 hnd.2]

theorem sortPairs_eq_of_perm {β : Type} {l1 l2 : List (String × β)} (hp : l1.Perm l2)
    (hn : (l1.map fun p => p.1).Nodup) : sortPairs l1 = sortPairs l2 := by
  apply sorted_perm_nodup_eq
  · exact (sortPairs_perm l1).trans (hp.trans (sortPairs_perm l2).symm)
  · exact sortPairs_sorted l1
  · exact sortPairs_sorted l2
  · exact (((sortPairs_perm l1).map (fun p => p.1)).nodup_iff).mpr hn

theorem filterMap_key_mem {β γ : Type} {g : String × β → Option (String × γ)}
    (hg : ∀ x y, g x = some y → y.1 = x.1) {l : List (String × β)} {w : String × γ}
    (hw : w ∈ l.filterMap g) : w.1 ∈ l.map (fun p => p.1) := by
  obtain ⟨x, hx, hgx⟩ := List.mem_filterMap.mp hw
  exact List.mem_map.mpr ⟨x, hx, (hg x w hgx).symm⟩

theorem filterMap_insPair_none {β γ : Type} (g : String × β → Option (String × γ))
    (x : String × β) (hx : g x = none) :
    ∀ l : List (String × β), (insPair x l).filterMap g = l.filterMap g := by
  intro l
  induction l with
  | nil => simp [insPair, List.filterMap_cons, hx]
  | cons y ys ih =>
    rw [insPair]
    split
    · exact List.filterMap_cons_none hx
    · rw [List.filterMap_cons, List.filterMap_cons]
      cases hgy : g y with
      | none => exact ih
      | some w => rw [ih]

theorem filterMap_insPair_some {β γ : Type} (g : String × β → Option (String × γ))
    (hg : ∀ x y, g x = some y → y.1 = x.1)
    (x : String × β) (y : String × γ) (hx : g x = some y) :
    ∀ l : List (String × β), List.Pairwise leKey l →
      (insPair x l).filterMap g = insPair y (l.filterMap g) := by
  have hkey : y.1 = x.1 := hg x y hx
  intro l
  induction l with
  | nil =>
    intro _
    simp [insPair, List.filterMap_cons, hx]
  | cons z zs ih =>
    intro hp
    rw [insPair]
    split
    · rename_i hxz
      rw [List.filterMap_cons_some hx]
      rw [insPair_eq_cons]
      intro w hw
      have hwk := filterMap_key_mem hg hw
      rcases List.mem_map.mp hwk with ⟨u, hu, huk⟩
      rcases List.mem_cons.mp hu with rfl | hu'
      · show strLeB y.1.data w.1.data = true
        rw [hkey, ← huk]
        exact hxz
      · show strLeB y.1.data w.1.data = true
        rw [hkey, ← huk]
        exact strLeB_trans _ _ _ hxz ((List.pairwise_cons.mp hp).1 u hu')
    · rename_i hxz
      rw [List.filterMap_cons, List.filterMap_cons]
      cases hgz : g z with
      | none =>
        rw [ih (List.pairwise_cons.mp hp).2]
      | some w =>
        have hwk : w.1 = z.1 := hg z w hgz
        rw [ih (List.pairwise_cons.mp hp).2]
        have hcond : ¬ (strLeB y.1.data w.1.data = true) := by
          rw [hkey, hwk]
          exact hxz
        exact (by rw [insPair, if_neg hcond] :
          insPair y (w :: List.filterMap g zs) = w :: insPair y (List.filterMap g zs)).symm

theorem sortPairs_filterMap {β γ : Type} (g : String × β → Option (String × γ))
    (hg : ∀ x y, g x = some y → y.1 = x.1) :
    ∀ l : List (String × β), sortPairs (l.filterMap g) = (sortPairs l).filterMap g := by
  intro l
  induction l with
  | nil => rfl
  | cons x xs ih =>
    cases hgx : g x with
    | none =>
      rw [List.filterMap_cons_none hgx, ih]
      conv_rhs => rw [sortPairs]
      rw [filterMap_insPair_none g x hgx (sortPairs xs)]
    | some w =>
      conv_rhs => rw [sortPairs]
      rw [filterMap_insPair_some g hg x w hgx (sortPairs xs) (sortPairs_sorted xs)]
      rw [List.filterMap_cons_some hgx]
      conv_lhs => rw [sortPairs]
      rw [ih]

theorem fileChunksOf_cons_file (n : String) (content : List Nat)
    (l : List (String × WalkChunk)) :
    fileChunksOf ((n, .fileC content) :: l) = (n, content) :: fileChunksOf l := rfl

theorem fileChunksOf_cons_dir (n : String) (es : List (List String × List Nat))
    (l : List (String × WalkChunk)) :
    fileChunksOf ((n, .dirC es) :: l) = fileChunksOf l := rfl

theorem dirChunksOf_cons_file (n : String) (content : List Nat)
    (l : List (String × WalkChunk)) :
    dirChunksOf ((n, .fileC content) :: l) = dirChunksOf l := rfl

theorem dirChunksOf_cons_dir (n : String) (es : List (List String × List Nat))
    (l : List (String × WalkChunk)) :
    dirChunksOf ((n, .dirC es) :: l) = (n, es) :: dirChunksOf l := rfl

theorem chunkFilter_cons_file (skip : String → Bool) (n : String) (content : List Nat)
    (l : List (String × WalkChunk)) :
    chunkFilter skip ((n, .fileC content) :: l) =
      (n, .fileC content) :: chunkFilter skip l := rfl

theorem chunkFilter_cons_dir (skip : String → Bool) (n : String)
    (es : List (List String × List Nat)) (l : List (String × WalkChunk)) :
    chunkFilter skip ((n, .dirC es) :: l) =
      if skip n then chunkFilter skip l
      else (n, .dirC (filterSkip skip es)) :: chunkFilter skip l := by
  by_cases h : skip n = true
  · simp [chunkFilter, List.filterMap_cons, h]
  · simp [chunkFilter, List.filterMap_cons, h]

theorem fileChunksOf_chunkFilter (skip : String → Bool) :
    ∀ chunks : List (String × WalkChunk),
      fileChunksOf (chunkFilter skip chunks) = fileChunksOf chunks := by
  intro chunks
  induction chunks with
  | nil => rfl
  | cons c rest ih =>
    obtain ⟨n, ch⟩ := c
    cases ch with
    | fileC content =>
      rw [chunkFilter_cons_file, fileChunksOf_cons_file, fileChunksOf_cons_file, ih]
    | dirC es =>
      rw [chunkFilter_cons_dir, fileChunksOf_cons_dir]
      by_cases h : skip n = true
      · rw [if_pos h, ih]
      · rw [if_neg h, fileChunksOf_cons_dir, ih]

theorem dirChunksOf_chunkFilter (skip : String → Bool) :
    ∀ chunks : List (String × WalkChunk),
      dirChunksOf (chunkFilter skip chunks) = (dirChunksOf chunks).filterMap (dirPrune skip) := by
  intro chunks
  induction chunks with
  | nil => rfl
  | cons c rest ih =>
    obtain ⟨n, ch⟩ := c
    cases ch with
    | fileC content =>
      rw [chunkFilter_cons_file, dirChunksOf_cons_file, dirChunksOf_cons_file, ih]
    | dirC es =>
      rw [chunkFilter_cons_dir, dirChunksOf_cons_dir]
      by_cases h : skip n = true
      · rw [if_pos h, ih, List.filterMap_cons_none (by simp [dirPrune, h])]
      · rw [if_neg h, dirChunksOf_cons_dir, ih,
          List.filterMap_cons_some (show dirPrune skip (n, es) = some (n, filterSkip skip es)
            from by simp [dirPrune, h])]

theorem assembleWalk_paths_ne_nil (chunks : List (String × WalkChunk)) :
    ∀ e ∈ assembleWalk chunks, e.1 ≠ [] := by
  intro e he
  rcases List.mem_append.mp he with h | h
  · obtain ⟨f, hf, rfl⟩ := List.mem_map.mp h
    simp
  · obtain ⟨d, hd, he2⟩ := List.mem_flatMap.mp h
    obtain ⟨x, hx, rfl⟩ := List.mem_map.mp he2
    simp

theorem walkChunks_dirs_ne_nil (skip : String → Bool) :
    ∀ t : FSTree, ∀ d ∈ dirChunksOf (walkChunks skip t), ∀ e ∈ d.2, e.1 ≠ [] := by
  intro t
  induction t with
  | nil => intro d hd; simp [walkChunks, dirChunksOf] at hd
  | file n content mt md rest ih =>
    intro d hd
    rw [walkChunks, dirChunksOf_cons_file] at hd
    exact ih d hd
  | dir n sub rest ihsub ihrest =>
    intro d hd
    rw [walkChunks] at hd
    by_cases h : skip n = true
    · rw [if_pos h] at hd
      exact ihrest d hd
    · rw [if_neg h, dirChunksOf_cons_dir] at hd
      rcases List.mem_cons.mp hd with rfl | hd'
      · exact fun e he => assembleWalk_paths_ne_nil _ e he
      · exact ihrest d hd'

theorem flatMap_dirPrune_filter (skip : String → Bool) :
    ∀ L : List (String × List (List String × List Nat)),
      (∀ d ∈ L, ∀ e ∈ d.2, e.1 ≠ []) →
      (L.filterMap (dirPrune skip)).flatMap (fun d => d.2.map (fun e => (d.1 :: e.1, e.2))) =
        List.filter (fun e => keepPath skip e.1)
          (L.flatMap (fun d => d.2.map (fun e => (d.1 :: e.1, e.2)))) := by
  intro L
  induction L with
  | nil => intro _; rfl
  | cons d t ih =>
    intro hne
    rw [List.flatMap_cons, List.filter_append]
    by_cases h : skip d.1 = true
    · rw [List.filterMap_cons_none (show dirPrune skip d = none from by simp [dirPrune, h]),
        ih (fun d' hd' => hne d' (List.mem_cons_of_mem _ hd'))]
      have h2 : List.filter (fun e => keepPath skip e.1)
          (d.2.map fun e => (d.1 :: e.1, e.2)) = [] := by
        rw [List.filter_eq_nil_iff]
        intro a ha
        obtain ⟨e, he, rfl⟩ := List.mem_map.mp ha
        have hene := hne d (List.mem_cons_self _ _) e he
        cases e1 : e.1 with
        | nil => exact absurd e1 hene
        | cons s ss => simp [keepPath, e1, h]
      rw [h2, List.nil_append]
    · rw [List.filterMap_cons_some
          (show dirPrune skip d = some (d.1, filterSkip skip d.2) from by simp [dirPrune, h]),
        List.flatMap_cons, ih (fun d' hd' => hne d' (List.mem_cons_of_mem _ hd'))]
      congr 1
      rw [filterSkip, List.filter_map]
      have hcong : List.filter ((fun e => keepPath skip e.1) ∘ fun e => (d.1 :: e.1, e.2)) d.2 =
          List.filter (fun e => keepPath skip e.1) d.2 := by
        apply List.filter_congr
        intro e he
        have hene := hne d (List.mem_cons_self _ _) e he
        cases e1 : e.1 with
        | nil => exact absurd e1 hene
        | cons s ss => simp [keepPath, e1, h]
      rw [hcong]

theorem assembleWalk_chunkFilter (skip : String → Bool) (chunks : List (String × WalkChunk))
    (hne : ∀ d ∈ dirChunksOf chunks, ∀ e ∈ d.2, e.1 ≠ []) :
    assembleWalk (chunkFilter skip chunks) = filterSkip skip (assembleWalk chunks) := by
  unfold assembleWalk
  rw [show filterSkip skip
        ((sortPairs (fileChunksOf chunks)).map (fun f => ([f.1], f.2)) ++
          (sortPairs (dirChunksOf chunks)).flatMap
            (fun d => d.2.map (fun e => (d.1 :: e.1, e.2)))) =
      List.filter (fun e => keepPath skip e.1)
        ((sortPairs (fileChunksOf chunks)).map (fun f => ([f.1], f.2))) ++
        List.filter (fun e => keepPath skip e.1)
          ((sortPairs (dirChunksOf chunks)).flatMap
            (fun d => d.2.map (fun e => (d.1 :: e.1, e.2))))
      from List.filter_append _ _]
  have hfiles : (sortPairs (fileChunksOf (chunkFilter skip chunks))).map
      (fun f => ([f.1], f.2)) =
      List.filter (fun e => keepPath skip e.1)
        ((sortPairs (fileChunksOf chunks)).map (fun f => ([f.1], f.2))) := by
    rw [fileChunksOf_chunkFilter, List.filter_map,
      List.filter_eq_self.mpr (fun a _ => by simp [keepPath])]
  have hdirs : (sortPairs (dirChunksOf (chunkFilter skip chunks))).flatMap
      (fun d => d.2.map (fun e => (d.1 :: e.1, e.2))) =
      List.filter (fun e => keepPath skip e.1)
        ((sortPairs (dirChunksOf chunks)).flatMap
          (fun d => d.2.map (fun e => (d.1 :: e.1, e.2)))) := by
    rw [dirChunksOf_chunkFilter,
      sortPairs_filterMap (dirPrune skip)
        (fun x y hxy => by
          by_cases h : skip x.1 = true
          · simp [dirPrune, h] at hxy
          · simp [dirPrune, h] at hxy
            rw [← hxy]),
      flatMap_dirPrune_filter skip _
        (fun d hd => hne d ((sortPairs_perm (dirChunksOf chunks)).mem_iff.mp hd))]
  rw [hfiles, hdirs]

theorem walkChunks_noSkip_dir (n : String) (sub rest : FSTree) :
    walkChunks (fun _ => false) (.dir n sub rest) =
      (n, .dirC (assembleWalk (walkChunks (fun _ => false) sub))) ::
        walkChunks (fun _ => false) rest := by
  rw [walkChunks]
  simp

theorem walkChunks_filter (skip : String → Bool) :
    ∀ t : FSTree, walkChunks skip t = chunkFilter skip (walkChunks (fun _ => false) t) := by
  intro t
  induction t with
  | nil => rfl
  | file n content mt md rest ih =>
    rw [walkChunks, walkChunks, ih, chunkFilter_cons_file]
  | dir n sub rest ihsub ihrest =>
    rw [walkChunks, walkChunks_noSkip_dir, chunkFilter_cons_dir]
    by_cases h : skip n = true
    · rw [if_pos h, if_pos h, ihrest]
    · rw [if_neg h, if_neg h, ihrest, ihsub,
        assembleWalk_chunkFilter skip (walkChunks (fun _ => false) sub)
          (walkChunks_dirs_ne_nil (fun _ => false) sub)]

theorem walkTree_eq_filter_listing (skip : String → Bool) (t : FSTree) :
    walkTree skip t = filterSkip skip (listing t) := by
  rw [walkTree, walkChunks_filter, listing, walkTree,
    assembleWalk_chunkFilter skip _ (walkChunks_dirs_ne_nil (fun _ => false) t)]

theorem walkChunks_chainAppend (skip : String → Bool) :
    ∀ a b : FSTree,
      walkChunks skip (chainAppend a b) = walkChunks skip a ++ walkChunks skip b := by
  intro a b
  induction a with
  | nil => rfl
  | file n c mt md rest ih => simp [chainAppend, walkChunks, ih]
  | dir n sub rest ihsub ihrest =>
    by_cases h : skip n = true
    · simp [chainAppend, walkChunks, h, ihrest]
    · simp [chainAppend, walkChunks, h, ihrest]

theorem walkChunks_names :
    ∀ t : FSTree, (walkChunks (fun _ => false) t).map (fun c => c.1) = chainNames t := by
  intro t
  induction t with
  | nil => rfl
  | file n c mt md rest ih => simp [walkChunks, chainNames, ih]
  | dir n sub rest ihsub ihrest => simp [walkChunks, chainNames, ihrest]

theorem wf_chainNames_nodup : ∀ t : FSTree, wfTree t = true → (chainNames t).Nodup := by
  intro t
  induction t with
  | nil => intro _; exact List.nodup_nil
  | file n c mt md rest ih =>
    intro h
    rw [wfTree, Bool.and_eq_true] at h
    rw [chainNames]
    exact List.nodup_cons.mpr ⟨by simpa using h.1, ih h.2⟩
  | dir n sub rest ihsub ihrest =>
    intro h
    rw [wfTree, Bool.and_eq_true, Bool.and_eq_true] at h
    rw [chainNames]
    exact List.nodup_cons.mpr ⟨by simpa using h.1.1, ihrest h.2⟩

theorem fileChunksOf_keys_sublist :
    ∀ chunks : List (String × WalkChunk),
      ((fileChunksOf chunks).map (fun p => p.1)).Sublist (chunks.map (fun c => c.1)) := by
  intro chunks
  induction chunks with
  | nil => exact List.Sublist.refl _
  | cons c rest ih =>
    obtain ⟨n, ch⟩ := c
    cases ch with
    | fileC content =>
      rw [fileChunksOf_cons_file]
      simp only [List.map_cons]
      exact ih.cons₂ n
    | dirC es =>
      rw [fileChunksOf_cons_dir]
      simp only [List.map_cons]
      exact ih.cons n

theorem dirChunksOf_keys_sublist :
    ∀ chunks : List (String × WalkChunk),
      ((dirChunksOf chunks).map (fun p => p.1)).Sublist (chunks.map (fun c => c.1)) := by
  intro chunks
  induction chunks with
  | nil => exact List.Sublist.refl _
  | cons c rest ih =>
    obtain ⟨n, ch⟩ := c
    cases ch with
    | fileC content =>
      rw [dirChunksOf_cons_file]
      simp only [List.map_cons]
      exact ih.cons n
    | dirC es =>
      rw [dirChunksOf_cons_dir]
      simp only [List.map_cons]
      exact ih.cons₂ n

theorem assembleWalk_reverse (chunks : List (String × WalkChunk))
    (hn : (chunks.map (fun c => c.1)).Nodup) :
    assembleWalk chunks.reverse = assembleWalk chunks := by
  unfold assembleWalk
  have hf : sortPairs (fileChunksOf chunks.reverse) = sortPairs (fileChunksOf chunks) := by
    have h1 : fileChunksOf chunks.reverse = (fileChunksOf chunks).reverse := by
      rw [fileChunksOf, fileChunksOf, List.filterMap_reverse]
    rw [h1]
    exact sortPairs_eq_of_perm (List.reverse_perm _)
      ((((fileChunksOf chunks).reverse_perm.map (fun p => p.1)).nodup_iff).mpr
        ((fileChunksOf_keys_sublist chunks).nodup hn))
  have hd : sortPairs (dirChunksOf chunks.reverse) = sortPairs (dirChunksOf chunks) := by
    have h1 : dirChunksOf chunks.reverse = (dirChunksOf chunks).reverse := by
      rw [dirChunksOf, dirChunksOf, List.filterMap_reverse]
    rw [h1]
    exact sortPairs_eq_of_perm (List.reverse_perm _)
      ((((dirChunksOf chunks).reverse_perm.map (fun p => p.1)).nodup_iff).mpr
        ((dirChunksOf_keys_sublist chunks).nodup hn))
  rw [hf, hd]

theorem walkChunks_scramble :
    ∀ t : FSTree, wfTree t = true →
      walkChunks (fun _ => false) (scramble t) =
        (walkChunks (fun _ => false) t).reverse := by
  intro t
  induction t with
  | nil => intro _; rfl
  | file n c mt md rest ih =>
    intro h
    rw [wfTree, Bool.and_eq_true] at h
    rw [scramble, walkChunks_chainAppend, ih h.2]
    simp [walkChunks, List.reverse_cons]
  | dir n sub rest ihsub ihrest =>
    intro h
    rw [wfTree, Bool.and_eq_true, Bool.and_eq_true] at h
    have hsubkeys : ((walkChunks (fun _ => false) sub).map (fun c => c.1)).Nodup := by
      rw [walkChunks_names]
      exact wf_chainNames_nodup sub h.1.2
    rw [scramble, walkChunks_chainAppend, ihrest h.2, walkChunks_noSkip_dir,
      walkChunks_noSkip_dir]
    rw [show walkChunks (fun _ => false) FSTree.nil = [] from rfl,
      ihsub h.1.2, assembleWalk_reverse _ hsubkeys, List.reverse_cons]

theorem listing_scramble (t : FSTree) (h : wfTree t = true) :
    listing (scramble t) = listing t := by
  have hkeys : ((walkChunks (fun _ => false) t).map (fun c => c.1)).Nodup := by
    rw [walkChunks_names]
    exact wf_chainNames_nodup t h
  rw [listing, listing, walkTree, walkTree, walkChunks_scramble t h,
    assembleWalk_reverse _ hkeys]

/-- C2: archive determinism.  (1) The entry sequence either builder writes
is a function of the staged file contents alone (the canonical metadata-free
`listing`): two staged trees with equal listings yield identical archives
from `create_function_zip` and from `create_handler_zip`.  (2) The listing —
and hence the archive — is invariant under filesystem nondeterminism:
reversing every directory's enumeration order and perturbing every mtime
and permission bit (`scramble`) leaves it unchanged on any well-formed
tree.  The serialized bytes are a fixed function of the entry sequence
(fixed compression method per entry), so equal entry sequences give
byte-identical archives. -/
theorem claim_C2_archive_determinism :
    (∀ t1 t2 : FSTree, listing t1 = listing t2 →
      create_function_zip_entries t1 = create_function_zip_entries t2 ∧
      create_handler_zip_entries t1 = create_handler_zip_entries t2) ∧
    (∀ t : FSTree, wfTree t = true → listing (scramble t) = listing t) := by
  constructor
  · intro t1 t2 h
    constructor
    · rw [create_function_zip_entries, create_function_zip_entries,
        walkTree_eq_filter_listing, walkTree_eq_filter_listing, h]
    · rw [create_handler_zip_entries, create_handler_zip_entries,
        walkTree_eq_filter_listing, walkTree_eq_filter_listing, h]
  · exact listing_scramble

theorem claim_C2_archive_determinism_witness :
    (listing (FSTree.file "b" [1] 10 420
        (FSTree.dir "a" (FSTree.file "c" [7] 3 400 FSTree.nil) FSTree.nil)) =
      listing (FSTree.dir "a" (FSTree.file "c" [7] 99 384 FSTree.nil)
        (FSTree.file "b" [1] 0 266 FSTree.nil)) ∧
      create_function_zip_entries (FSTree.file "b" [1] 10 420
        (FSTree.dir "a" (FSTree.file "c" [7] 3 400 FSTree.nil) FSTree.nil)) =
        create_function_zip_entries (FSTree.dir "a" (FSTree.file "c" [7] 99 384 FSTree.nil)
          (FSTree.file "b" [1] 0 266 FSTree.nil))) ∧
    (wfTree (FSTree.dir "a" (FSTree.file "c" [7] 99 384 FSTree.nil)
        (FSTree.file "b" [1] 0 266 FSTree.nil)) = true ∧
      listing (scramble (FSTree.dir "a" (FSTree.file "c" [7] 99 384 FSTree.nil)
        (FSTree.file "b" [1] 0 266 FSTree.nil))) =
        listing (FSTree.dir "a" (FSTree.file "c" [7] 99 384 FSTree.nil)
          (FSTree.file "b" [1] 0 266 FSTree.nil))) :=
  ⟨⟨by decide, (claim_C2_archive_determinism.1 _ _ (by decide)).1⟩,
   ⟨by decide, claim_C2_archive_determinism.2 _ (by decide)⟩⟩

/-- C8: every archive entry written by either builder carries the pinned
metadata — timestamp 1980-01-01 00:00:00 regardless of the file's mtime,
permission bits 0o644 shifted into the unix attribute field, and the same
fixed `ZIP_DEFLATED` compression method for every entry. -/
theorem claim_C8_pinned_metadata (staged : FSTree) (e : ZipEntry)
    (he : e ∈ create_function_zip_entries staged ∨ e ∈ create_handler_zip_entries staged) :
    e.date_time = (1980, 1, 1, 0, 0, 0) ∧ e.external_attr = 0o644 <<< 16 ∧
      e.compress_type = ZIP_DEFLATED := by
  rcases he with h | h <;>
    · obtain ⟨x, hx, rfl⟩ := List.mem_map.mp h
      exact ⟨rfl, rfl, rfl⟩

theorem claim_C8_pinned_metadata_witness :
    pinEntry (["main.go"], [104, 105]) ∈
        create_function_zip_entries (FSTree.file "main.go" [104, 105] 777 511 FSTree.nil) ∧
    ((pinEntry (["main.go"], [104, 105])).date_time = (1980, 1, 1, 0, 0, 0) ∧
      (pinEntry (["main.go"], [104, 105])).external_attr = 0o644 <<< 16 ∧
      (pinEntry (["main.go"], [104, 105])).compress_type = ZIP_DEFLATED) :=
  ⟨by decide,
   claim_C8_pinned_metadata (FSTree.file "main.go" [104, 105] 777 511 FSTree.nil)
     (pinEntry (["main.go"], [104, 105])) (Or.inl (by decide))⟩
